import Mathlib

/-!
# Verification of the TuriMobile dialogue/quiz engine

Shallow embedding of the dialogue progression and speech-matching engine of
the TuriMobile repository (`src/components/DialogueBox.tsx` and the vocal-quiz
component), together with theorems settling the specification claims.

JavaScript string semantics are modelled explicitly: `"".split(/\s+/)`
returns `[""]`, `Math.round` rounds half toward positive infinity
(`round` on `ℚ` in Mathlib agrees), numeric work is carried out in `ℚ`.
-/

namespace Turi

/-- The punctuation characters stripped by the `replace(/[.,?!;:]/g, '')`
calls throughout the source. -/
def isPunct (c : Char) : Bool :=
  c = '.' ∨ c = ',' ∨ c = '?' ∨ c = '!' ∨ c = ';' ∨ c = ':'

/-- `String.prototype.toLowerCase` restricted to the character repertoire the
application uses (ASCII plus Cyrillic, the target/mother languages being
English and Russian). -/
def jsToLowerChar (c : Char) : Char :=
  if 'A' ≤ c ∧ c ≤ 'Z' then Char.ofNat (c.toNat + 32)
  else if 'А' ≤ c ∧ c ≤ 'Я' then Char.ofNat (c.toNat + 32)
  else if c = 'Ё' then 'ё'
  else c

/-- `s.toLowerCase()`. -/
def jsLower (s : String) : String :=
  String.mk (s.data.map jsToLowerChar)

/-- `String.prototype.trim` on a character list: drop leading and trailing
whitespace. -/
def trimChars (l : List Char) : List Char :=
  ((l.dropWhile (fun c => c.isWhitespace)).reverse.dropWhile
    (fun c => c.isWhitespace)).reverse

/-- `s.toLowerCase().replace(/[.,?!;:]/g, '').trim()` as a character list —
the normalization used by `calculateMatchPercentage` and `findMatchingWords`
(DialogueBox.tsx lines 438-439). -/
def cleanChars (s : String) : List Char :=
  trimChars ((s.data.map jsToLowerChar).filter (fun c => ¬ isPunct c))

/-- The normalized phrase as a string. -/
def cleanPhrase (s : String) : String :=
  String.mk (cleanChars s)

/-- Maximal non-whitespace runs of a character list; `acc` holds the current
run reversed. -/
def wsRuns (acc : List Char) : List Char → List (List Char)
  | [] => if acc = [] then [] else [acc.reverse]
  | c :: rest =>
    if c.isWhitespace then
      if acc = [] then wsRuns [] rest else acc.reverse :: wsRuns [] rest
    else wsRuns (c :: acc) rest

/-- The token list both matcher functions operate on: `cleaned.split(/\s+/)`
(DialogueBox.tsx lines 442-443).  For an already-trimmed string this is the
list of maximal non-whitespace runs, except that JavaScript's
`"".split(/\s+/)` is `[""]`. -/
def normTokens (s : String) : List String :=
  let toks := (wsRuns [] (cleanChars s)).map String.mk
  if toks.isEmpty then [""] else toks

/-- Number of positions (up to the shorter length) where the two words carry
the same character — the `matchingChars` loop of DialogueBox.tsx
lines 467-472. -/
def agreeCount (a b : String) : ℕ :=
  ((a.data.zip b.data).filter (fun p => p.1 = p.2)).length

/-- The partial-match test of `calculateMatchPercentage`
(DialogueBox.tsx lines 462-475): both words longer than 2 characters and the
position-by-position agreement is at least 70% of the LONGER word's length. -/
def scoreNearMatch (spokenWord expectedWord : String) : Bool :=
  spokenWord.length > 2 ∧ expectedWord.length > 2 ∧
    10 * agreeCount spokenWord expectedWord ≥
      7 * max spokenWord.length expectedWord.length

/-- The partial-match test of `findMatchingWords`
(DialogueBox.tsx lines 517-528): both words longer than 2 characters and the
position-by-position agreement is at least 70% of the EXPECTED word's length
(`matchingChars / expectedWord.length`, line 527). -/
def highlightNearMatch (spokenWord expectedWord : String) : Bool :=
  spokenWord.length > 2 ∧ expectedWord.length > 2 ∧
    10 * agreeCount spokenWord expectedWord ≥ 7 * expectedWord.length

/-- Weight one expected token contributes to the `matchedWords` accumulator of
`calculateMatchPercentage` (DialogueBox.tsx lines 450-481): `1` for a verbatim
occurrence, else `0.8` when some spoken token passes the partial-match test,
else `0`. -/
def wordWeight (spokenWords : List String) (expectedWord : String) : ℚ :=
  if expectedWord ∈ spokenWords then 1
  else if spokenWords.any (fun sw => scoreNearMatch sw expectedWord) then (0.8 : ℚ)
  else 0

/-- `calculateMatchPercentage` (DialogueBox.tsx lines 434-491). -/
def calculateMatchPercentage (spoken expected : String) : ℤ :=
  if spoken = "" ∨ expected = "" then 0
  else
    let spokenWords := normTokens spoken
    let expectedWords := normTokens expected
    if expectedWords.all (fun w => w ∈ spokenWords) then 100
    else
      let matched : ℚ := (expectedWords.map (wordWeight spokenWords)).sum
      let percentage : ℚ := matched / (expectedWords.length : ℚ) * 100
      let verbosityBonus : ℚ :=
        if spokenWords.length > expectedWords.length then 5 else 0
      min 100 (round (percentage + verbosityBonus))

/-- `findMatchingWords` (DialogueBox.tsx lines 496-537): the expected tokens
pushed by the loop, i.e. those occurring verbatim among the spoken tokens or
passing `highlightNearMatch` against some spoken token. -/
def findMatchingWords (spoken expected : String) : List String :=
  if spoken = "" ∨ expected = "" then []
  else
    let spokenWords := normTokens spoken
    let expectedWords := normTokens expected
    expectedWords.filter (fun w =>
      w ∈ spokenWords ∨ spokenWords.any (fun sw => highlightNearMatch sw w))

/-- The expected tokens that contribute a positive weight to the accumulator
of `calculateMatchPercentage` on the same inputs (empty when the guard of
line 435 short-circuits the computation). -/
def positiveWeightTokens (spoken expected : String) : List String :=
  if spoken = "" ∨ expected = "" then []
  else
    let spokenWords := normTokens spoken
    (normTokens expected).filter (fun w => wordWeight spokenWords w ≠ 0)

/-! ## Dialogue data model (DialogueBox.tsx) -/

/-- The two languages the application supports. -/
inductive Lang where
  | en
  | ru
deriving DecidableEq, Repr

/-- Speaker tag of a dialogue step. -/
inductive Speaker where
  | NPC
  | User
deriving DecidableEq, Repr

/-- A row of the `<characterId>_phrases` table (`DialoguePhrase` in
DialogueBox.tsx). -/
structure DialoguePhrase where
  id : ℕ
  dialogue_id : ℕ
  dialogue_step : ℕ
  speaker : Speaker
  english_text : String
  russian_text : String
  phonetic_text_en : String
  phonetic_text_ru : String
deriving DecidableEq, Repr

/-- An entry of the conversation history (`ConversationEntry` in
DialogueBox.tsx). -/
structure ConversationEntry where
  id : ℕ
  step : ℕ
  speaker : Speaker
  phrase : String
  transcription : String
  translation : String
  isCompleted : Bool
deriving DecidableEq, Repr

/-- `targetLanguage === 'en' ? p.english_text : p.russian_text`. -/
def phraseText (tl : Lang) (p : DialoguePhrase) : String :=
  if tl = Lang.en then p.english_text else p.russian_text

/-- `targetLanguage === 'ru' ? p.phonetic_text_ru : p.phonetic_text_en`. -/
def phraseTranscription (tl : Lang) (p : DialoguePhrase) : String :=
  if tl = Lang.ru then p.phonetic_text_ru else p.phonetic_text_en

/-- `motherLanguage === 'en' ? p.english_text : p.russian_text`. -/
def phraseTranslation (ml : Lang) (p : DialoguePhrase) : String :=
  if ml = Lang.en then p.english_text else p.russian_text

/-- Build the conversation entry the source constructs for a phrase at a
step. -/
def mkEntry (tl ml : Lang) (spk : Speaker) (completed : Bool)
    (p : DialoguePhrase) (step : ℕ) : ConversationEntry :=
  { id := p.id
    step := step
    speaker := spk
    phrase := phraseText tl p
    transcription := phraseTranscription tl p
    translation := phraseTranslation ml p
    isCompleted := completed }

/-- The predicate used to find the active user phrase
(DialogueBox.tsx lines 1385-1389 and 1280-1284): a `User` entry at the
current step that is not completed. -/
def pendingUserAt (cur : ℕ) (e : ConversationEntry) : Bool :=
  e.speaker = Speaker.User ∧ e.step = cur ∧ e.isCompleted = false

/-- `findIndex` by id followed by an in-place completed update
(DialogueBox.tsx lines 1424-1432): the first entry with the given id has its
`isCompleted` flag set to `true`. -/
def markFirstCompleted (idv : ℕ) : List ConversationEntry → List ConversationEntry
  | [] => []
  | e :: rest =>
    if e.id = idv then { e with isCompleted := true } :: rest
    else e :: markFirstCompleted idv rest

/-- `Math.max(...currentDialogues.map(d => d.dialogue_step))`
(DialogueBox.tsx line 1437); `none` models the `-Infinity` produced on an
empty list, which the `===` comparison of line 1440 can never match. -/
def maxDialogueStep : List DialoguePhrase → Option ℕ
  | [] => none
  | p :: rest =>
    match maxDialogueStep rest with
    | none => some p.dialogue_step
    | some m => some (max p.dialogue_step m)

/-- `currentDialogues[0]?.dialogue_id || 1` (DialogueBox.tsx line 1452):
the first phrase's dialogue id, with JavaScript falsiness sending both a
missing element and an id of `0` to `1`. -/
def quizDialogueId (ds : List DialoguePhrase) : ℕ :=
  match ds.head? with
  | some d => if d.dialogue_id = 0 then 1 else d.dialogue_id
  | none => 1

/-- The observable result of feeding one final transcript to
`handleSuccessfulSpeechRecognition`: the conversation history and current
step after all scheduled updates have run, whether the quiz handoff
(`showQuizAfterDialogue`) was invoked and with which dialogue id, and whether
the transcript was accepted. -/
structure RecognitionOutcome where
  history : List ConversationEntry
  currentStep : ℕ
  quizInvoked : Option ℕ
  accepted : Bool
deriving DecidableEq, Repr

/-- `handleSuccessfulSpeechRecognition` (DialogueBox.tsx lines 1370-1577),
including the deferred STEP 6/7 updates its timeouts schedule:
find the pending user phrase, score the transcript, and on a score of at
least 60 mark the phrase completed and either complete the dialogue
(`isLastStep`, line 1440: current step equals the maximum step OR equals 4,
or no NPC phrase exists at the next step, or the NPC phrase is revealed but
no user phrase exists after it) or advance to the next user step. -/
def handleSuccessfulSpeechRecognition (tl ml : Lang) (ds : List DialoguePhrase)
    (h : List ConversationEntry) (cur : ℕ) (transcript : String) :
    RecognitionOutcome :=
  match h.find? (pendingUserAt cur) with
  | none => ⟨h, cur, none, false⟩
  | some u =>
    let expectedPhrase := jsLower u.phrase
    if calculateMatchPercentage transcript expectedPhrase < 60 then
      ⟨h, cur, none, false⟩
    else
      let updatedHistory := markFirstCompleted u.id h
      let isLastStep := maxDialogueStep ds = some cur ∨ cur = 4
      let dialogueId := quizDialogueId ds
      if isLastStep then ⟨updatedHistory, cur, some dialogueId, true⟩
      else
        match ds.find? (fun p =>
            p.dialogue_step = cur + 1 ∧ p.speaker = Speaker.NPC) with
        | none => ⟨updatedHistory, cur, some dialogueId, true⟩
        | some npc =>
          let withNpc := updatedHistory ++ [mkEntry tl ml Speaker.NPC true npc (cur + 1)]
          match ds.find? (fun p =>
              p.dialogue_step = cur + 2 ∧ p.speaker = Speaker.User) with
          | none => ⟨withNpc, cur + 1, some dialogueId, true⟩
          | some nu =>
            ⟨withNpc ++ [mkEntry tl ml Speaker.User false nu (cur + 2)],
              cur + 2, none, true⟩

/-- `handleManualContinue` (DialogueBox.tsx lines 1261-1291): find the
pending user phrase and feed its own text, lowercased, back through
`handleSuccessfulSpeechRecognition` as if it had been recognized with
confidence 1. -/
def handleManualContinue (tl ml : Lang) (ds : List DialoguePhrase)
    (h : List ConversationEntry) (cur : ℕ) : RecognitionOutcome :=
  match h.find? (pendingUserAt cur) with
  | none => ⟨h, cur, none, false⟩
  | some u => handleSuccessfulSpeechRecognition tl ml ds h cur (jsLower u.phrase)

/-- `initializeConversation` (DialogueBox.tsx lines 611-741), with the
deferred reveal of the step-2 user phrase its timeouts schedule: the history
becomes the step-1 NPC entry (already completed) followed, when present, by
the step-2 user entry (not completed).  When no step-1 NPC phrase exists, or
an entry with its id is already present, nothing changes. -/
def initializeConversation (tl ml : Lang) (phrases : List DialoguePhrase)
    (h : List ConversationEntry) : List ConversationEntry :=
  match phrases.find? (fun p =>
      p.dialogue_step = 1 ∧ p.speaker = Speaker.NPC) with
  | none => h
  | some f =>
    if h.any (fun e => e.id = f.id) then h
    else
      let base := [mkEntry tl ml Speaker.NPC true f 1]
      match phrases.find? (fun p =>
          p.dialogue_step = 2 ∧ p.speaker = Speaker.User) with
      | none => base
      | some u => base ++ [mkEntry tl ml Speaker.User false u 2]

/-- `addUserPhrase` (DialogueBox.tsx lines 746-786): append the user phrase
at the given step, unless none exists or an entry with its id is already in
the history. -/
def addUserPhrase (tl ml : Lang) (phrases : List DialoguePhrase)
    (h : List ConversationEntry) (step : ℕ) : List ConversationEntry :=
  match phrases.find? (fun p =>
      p.dialogue_step = step ∧ p.speaker = Speaker.User) with
  | none => h
  | some u =>
    if h.any (fun e => e.id = u.id) then h
    else h ++ [mkEntry tl ml Speaker.User false u step]

/-- The immediate history replacement performed by `handleGoBack`
(DialogueBox.tsx lines 937-1081): truncate to entries with
`step <= entry.step`; for a selected user entry additionally mark the user
entry at that step incomplete (lines 1047-1052). -/
def handleGoBack (h : List ConversationEntry) (entry : ConversationEntry) :
    List ConversationEntry :=
  let filteredHistory := h.filter (fun e => e.step ≤ entry.step)
  if entry.speaker = Speaker.NPC then filteredHistory
  else
    filteredHistory.map (fun e =>
      if e.speaker = Speaker.User ∧ e.step = entry.step then
        { e with isCompleted := false }
      else e)

/-- `handleGoBack` including the deferred reveal scheduled in the NPC branch
(DialogueBox.tsx lines 960-1035): after replaying an NPC entry, the user
phrase at the following step, when one exists in the loaded dialogue list, is
appended to the truncated history. -/
def handleGoBackFull (tl ml : Lang) (ds : List DialoguePhrase)
    (h : List ConversationEntry) (entry : ConversationEntry) :
    List ConversationEntry :=
  let truncated := handleGoBack h entry
  if entry.speaker = Speaker.NPC then
    match ds.find? (fun d => d.dialogue_step = entry.step + 1) with
    | some nd =>
      if nd.speaker = Speaker.User then
        truncated ++ [mkEntry tl ml Speaker.User false nd (entry.step + 1)]
      else truncated
    | none => truncated
  else truncated

/-- The conversation-history invariant: entries strictly increasing in step
(hence at most one entry per step) and every NPC entry completed. -/
def HistoryInvariant (h : List ConversationEntry) : Prop :=
  List.Chain' (· < ·) (h.map (fun e => e.step)) ∧
    ∀ e ∈ h, e.speaker = Speaker.NPC → e.isCompleted = true

/-! ## Quiz (vocal quiz component, `src/unnamed/part_004`) -/

/-- What happened to one quiz word: eventually answered correctly
(`processCorrectAnswer`, which increments `correctCount`), or skipped /
never answered correctly (`skipWord` marks it incorrect without touching
`correctCount`). -/
inductive WordOutcome where
  | answeredCorrectly
  | skipped
deriving DecidableEq, Repr

/-- The `correctCount` accumulated over a quiz run. -/
def correctCount (os : List WordOutcome) : ℕ :=
  os.countP (fun o => o = WordOutcome.answeredCorrectly)

/-- `finishQuiz` (part_004 lines 831-885): `passPercentage = (correctCount /
quizWords.length) * 100`, `passed = passPercentage >= 60`, reported to the
caller via `onComplete(passed)`. -/
def finishQuizPassed (correct total : ℕ) : Bool :=
  decide ((correct : ℚ) / (total : ℚ) * 100 ≥ 60)

/-- The boolean reported for a completed quiz over the given word
outcomes. -/
def runQuiz (os : List WordOutcome) : Bool :=
  finishQuizPassed (correctCount os) os.length

/-- `replace(/\s+/g, ' ')`: collapse every whitespace run into a single
space. -/
def collapseWsChars : List Char → List Char
  | [] => []
  | [c] => if c.isWhitespace then [' '] else [c]
  | c :: d :: rest =>
    if c.isWhitespace then
      if d.isWhitespace then collapseWsChars (d :: rest)
      else ' ' :: collapseWsChars (d :: rest)
    else c :: collapseWsChars (d :: rest)

/-- `s.toLowerCase().trim().replace(/[.,?!;:]/g, '').replace(/\s+/g, ' ')` —
the quiz-side normalization (part_004 lines 394-400). -/
def quizCleanChars (s : String) : List Char :=
  collapseWsChars ((trimChars (s.data.map jsToLowerChar)).filter
    (fun c => ¬ isPunct c))

/-- Does `needle` occur at the start of `hay`? -/
def leadsChars : List Char → List Char → Bool
  | [], _ => true
  | _ :: _, [] => false
  | a :: as, b :: bs => a = b && leadsChars as bs

/-- `hay.includes(needle)`: does `needle` occur contiguously anywhere in
`hay`? -/
def occursIn (needle : List Char) : List Char → Bool
  | [] => needle.isEmpty
  | b :: bs => leadsChars needle (b :: bs) || occursIn needle bs

/-- Number of consecutive matching characters from the start (the loop with
`break` of part_004 lines 433-439). -/
def leadAgreeCount : List Char → List Char → ℕ
  | a :: as, b :: bs => if a = b then leadAgreeCount as bs + 1 else 0
  | _, _ => 0

/-- The `russianExactMatches` dictionary (part_004 lines 457-467). -/
def russianExactMatches : List (String × List String) :=
  [("ваш", ["wash", "vash", "vosh", "воше", "ваше"]),
   ("мой", ["moy", "moi", "моя"]),
   ("твой", ["tvoy", "tvoi", "твоя"]),
   ("наш", ["nash", "наше"]),
   ("ваша", ["vasha", "washa"]),
   ("моя", ["moya", "моя", "моё"]),
   ("их", ["ikh", "eeh", "eah"]),
   ("твоя", ["tvoya", "твой"]),
   ("его", ["yevo", "yego", "его"])]

/-- The `russianToEnglishMap` phonetic table (part_004 lines 480-490). -/
def russianToEnglishMap : List (Char × List String) :=
  [('в', ["v", "w"]),
   ('а', ["a"]),
   ('ш', ["sh", "s"]),
   ('м', ["m"]),
   ('о', ["o"]),
   ('й', ["y", "j", "i"]),
   ('т', ["t"]),
   ('я', ["ya", "ia"]),
   ('и', ["e", "i", "ee"])]

/-- Phonetic candidates for one expected character. -/
def lookupPhonetic (c : Char) : List String :=
  match russianToEnglishMap.find? (fun p => p.1 = c) with
  | some p => p.2
  | none => []

/-- `checkTranscriptMatch` (part_004 lines 384-521). -/
def checkTranscriptMatch (tl : Lang) (transcript expected : String) : Bool :=
  if transcript = "" ∨ expected = "" then false
  else if String.mk (trimChars transcript.data) = String.mk (trimChars expected.data) then
    true
  else
    let userClean := quizCleanChars transcript
    let expectedClean := quizCleanChars expected
    if userClean = expectedClean then true
    else if occursIn expectedClean userClean || occursIn userClean expectedClean then
      true
    else if tl = Lang.ru ∧
        userClean.filter (fun c => ¬ c.isWhitespace) =
          expectedClean.filter (fun c => ¬ c.isWhitespace) then
      true
    else if expectedClean.length > 0 ∧ userClean.length > 0 then
      let matchingChars := leadAgreeCount expectedClean userClean
      if matchingChars ≥ 2 ∨ 10 * matchingChars ≥ 3 * expectedClean.length then
        true
      else if tl = Lang.ru then
        if russianExactMatches.any (fun pr =>
            expectedClean = pr.1.data ∧ pr.2.any (fun v => userClean = v.data)) then
          true
        else
          let parts := expectedClean.foldl (fun acc c => acc ++ lookupPhonetic c) []
          let matchCount := (parts.filter (fun part => occursIn part.data userClean)).length
          if parts.length > 0 ∧ (matchCount ≥ 2 ∨ (matchCount = 1 ∧ parts.length ≤ 2)) then
            true
          else false
      else false
    else false

/-- Formulated from the spec's wording of the weighted count (spec §4.1
step 3), for comparison with the source's `wordWeight`: an expected token
contributes 1.0 when present verbatim among spoken tokens; otherwise 0.8
when some spoken token, with both tokens longer than 2 characters, agrees
position-by-position on at least 70% of characters measured against the
longer token's length; otherwise 0. -/
def specTokenWeight (spokenWords : List String) (w : String) : ℚ :=
  if w ∈ spokenWords then 1
  else if spokenWords.any (fun sw =>
      sw.length > 2 ∧ w.length > 2 ∧
        10 * agreeCount sw w ≥ 7 * max sw.length w.length) then (8 : ℚ) / 10
  else 0

/-- The spec-side weighted sum `W` of claim C5. -/
def specWeightedSum (spoken expected : String) : ℚ :=
  ((normTokens expected).map (specTokenWeight (normTokens spoken))).sum

/-! ## Concrete data used by witnesses and counterexamples -/

/-- A six-step dialogue (steps 1..6 alternating NPC/User) for dialogue id 1. -/
def dsSix : List DialoguePhrase :=
  [⟨1, 1, 1, Speaker.NPC, "Hello", "Привет", "heh-loh", "pree-vyet"⟩,
   ⟨2, 1, 2, Speaker.User, "hi", "привет", "hai", "pree-vyet"⟩,
   ⟨3, 1, 3, Speaker.NPC, "Nice", "Хорошо", "nais", "ha-ra-sho"⟩,
   ⟨4, 1, 4, Speaker.User, "yes", "да", "yes", "da"⟩,
   ⟨5, 1, 5, Speaker.NPC, "More", "Ещё", "mor", "ye-sho"⟩,
   ⟨6, 1, 6, Speaker.User, "ok", "ок", "ou-kei", "ok"⟩]

/-- History after the step-4 user phrase has been revealed but not yet
accepted. -/
def histFour : List ConversationEntry :=
  [⟨1, 1, Speaker.NPC, "Hello", "heh-loh", "Привет", true⟩,
   ⟨2, 2, Speaker.User, "hi", "hai", "привет", true⟩,
   ⟨3, 3, Speaker.NPC, "Nice", "nais", "Хорошо", true⟩,
   ⟨4, 4, Speaker.User, "yes", "yes", "да", false⟩]

/-- History after initialization: the step-2 user phrase is pending. -/
def histTwo : List ConversationEntry :=
  [⟨1, 1, Speaker.NPC, "Hello", "heh-loh", "Привет", true⟩,
   ⟨2, 2, Speaker.User, "hi", "hai", "привет", false⟩]

/-- A history whose pending user entry carries an empty phrase text. -/
def histEmptyPhrase : List ConversationEntry :=
  [⟨1, 1, Speaker.NPC, "Hello", "heh-loh", "Привет", true⟩,
   ⟨7, 2, Speaker.User, "", "", "", false⟩]

/-- Outcomes of a five-word quiz run: three answered correctly, two
skipped. -/
def quizFiveOutcomes : List WordOutcome :=
  [WordOutcome.answeredCorrectly, WordOutcome.answeredCorrectly,
   WordOutcome.answeredCorrectly, WordOutcome.skipped, WordOutcome.skipped]

/-! ## Helper lemmas -/

theorem round_mono_q {a b : ℚ} (h : a ≤ b) : round a ≤ round b := by
  rw [round_eq, round_eq]
  exact Int.floor_le_floor (by linarith)

theorem min_hundred_round (q : ℚ) :
    min (100 : ℤ) (round q) = round (min (100 : ℚ) q) := by
  have h100 : round ((100 : ℚ)) = 100 := by
    rw [show ((100 : ℚ)) = ((100 : ℤ) : ℚ) by norm_num, round_intCast]
  rcases le_total q 100 with h | h
  · have h1 : round q ≤ round (100 : ℚ) := round_mono_q h
    rw [min_eq_right (by rw [h100] at h1; exact h1), min_eq_right h]
  · have h1 : round (100 : ℚ) ≤ round q := round_mono_q h
    rw [min_eq_left (by rw [h100] at h1; exact h1), min_eq_left h, h100]

theorem calculateMatchPercentage_self (s : String) (hs : s ≠ "") :
    calculateMatchPercentage s s = 100 := by
  rw [calculateMatchPercentage]
  rw [if_neg (by simp [hs])]
  simp only
  rw [if_pos]
  exact List.all_eq_true.mpr (fun x hx => by simpa using hx)

theorem jsLower_eq_empty_iff (s : String) : jsLower s = "" ↔ s = "" := by
  constructor
  · intro h
    have hdata : (jsLower s).data = [] := by rw [h]
    simp [jsLower] at hdata
    cases s
    simp_all
  · intro h; rw [h]; rfl

theorem wordWeight_ne_zero_iff (sw : List String) (w : String) :
    wordWeight sw w ≠ 0 ↔
      (w ∈ sw ∨ sw.any (fun s => scoreNearMatch s w) = true) := by
  unfold wordWeight
  split_ifs with h1 h2
  · simp [h1]
  · simp [h1, h2]
    norm_num
  · simp [h1, h2]

theorem positiveWeightTokens_eq_filter (spoken expected : String) :
    positiveWeightTokens spoken expected =
      if spoken = "" ∨ expected = "" then []
      else (normTokens expected).filter (fun w =>
        decide (w ∈ normTokens spoken) ||
          (normTokens spoken).any (fun s => scoreNearMatch s w)) := by
  unfold positiveWeightTokens
  split_ifs with h
  · rfl
  · refine List.filter_congr ?_
    intro w _
    by_cases h1 : w ∈ normTokens spoken
    · simp [wordWeight, h1]
    · by_cases h2 : (normTokens spoken).any (fun s => scoreNearMatch s w) = true
      · simp [wordWeight, h1, h2]
        norm_num
      · simp [wordWeight, h1, h2]

theorem scoreNear_imp_highlightNear (sw ew : String)
    (h : scoreNearMatch sw ew = true) : highlightNearMatch sw ew = true := by
  unfold scoreNearMatch at h
  unfold highlightNearMatch
  simp only [decide_eq_true_eq] at h ⊢
  obtain ⟨h1, h2, h3⟩ := h
  exact ⟨h1, h2, le_trans (Nat.mul_le_mul_left 7 (le_max_right _ _)) h3⟩

/-! ## Claim theorems -/

/-- C3 counterexample: the claim quantifies over every string, but for the
empty string `calculateMatchPercentage` returns 0, not 100. -/
theorem score_self_counterexample :
    calculateMatchPercentage "" "" = 0 ∧ calculateMatchPercentage "" "" ≠ 100 := by
  decide

/-- C3 (amended): for every NON-EMPTY string `s`,
`calculateMatchPercentage s s = 100` (matching is performed after
lowercase/punctuation normalization, which is applied identically to both
sides). -/
theorem score_self_eq_hundred (s : String) (hs : s ≠ "") :
    calculateMatchPercentage s s = 100 :=
  calculateMatchPercentage_self s hs

/-- C3 witness: the amended theorem at a concrete input. -/
theorem score_self_eq_hundred_witness :
    ("Hello, there!" : String) ≠ "" ∧
      calculateMatchPercentage "Hello, there!" "Hello, there!" = 100 :=
  ⟨by decide, score_self_eq_hundred "Hello, there!" (by decide)⟩

/-- C4 counterexample: the claim requires only `expected` to be non-empty,
but for the empty spoken string the guard of line 435 returns 0 even when
every normalized expected token (here the single empty token produced by
normalizing `"."`) occurs in the spoken token list. -/
theorem token_cover_counterexample :
    ("." : String) ≠ "" ∧
      (∀ w ∈ normTokens ".", w ∈ normTokens "") ∧
      calculateMatchPercentage "" "." = 0 := by
  decide

/-- C4 (amended): for every NON-EMPTY spoken string and non-empty expected
string, if every normalized expected token occurs in the spoken token list
(in any order, possibly with extra tokens), the score is 100. -/
theorem token_cover_scores_hundred (spoken expected : String)
    (hs : spoken ≠ "") (he : expected ≠ "")
    (hsub : ∀ w ∈ normTokens expected, w ∈ normTokens spoken) :
    calculateMatchPercentage spoken expected = 100 := by
  rw [calculateMatchPercentage]
  rw [if_neg (by simp [hs, he])]
  simp only
  rw [if_pos]
  exact List.all_eq_true.mpr (fun x hx => by simpa using hsub x hx)

/-- C4 witness: the amended theorem at a concrete input with reordered and
padded tokens. -/
theorem token_cover_scores_hundred_witness :
    ("there yes hi friend" : String) ≠ "" ∧ ("Hi there" : String) ≠ "" ∧
      (∀ w ∈ normTokens "Hi there", w ∈ normTokens "there yes hi friend") ∧
      calculateMatchPercentage "there yes hi friend" "Hi there" = 100 :=
  ⟨by decide, by decide, by decide,
    token_cover_scores_hundred "there yes hi friend" "Hi there"
      (by decide) (by decide) (by decide)⟩

/-- C2 counterexample: for spoken `"abcdefgh"` and expected `"abc"`, the
partial-match ratio is `3/8 < 70%` against the longer token, so the token
`"abc"` contributes weight 0 to the score; but `findMatchingWords` measures
the ratio against the expected token's length (`3/3 = 100%`) and returns it. -/
theorem matched_words_counterexample :
    findMatchingWords "abcdefgh" "abc" = ["abc"] ∧
      positiveWeightTokens "abcdefgh" "abc" = [] := by
  constructor
  · decide
  · rw [positiveWeightTokens_eq_filter]
    decide

/-- C2 (amended): the two functions share the verbatim logic, but the
partial-match ratio of `findMatchingWords` is measured against the expected
token's length instead of the longer token's length, making it more
permissive; hence every expected token contributing a positive weight to the
score is returned by `findMatchingWords`, while the converse can fail. -/
theorem matched_words_superset (spoken expected w : String)
    (hw : w ∈ positiveWeightTokens spoken expected) :
    w ∈ findMatchingWords spoken expected := by
  rw [positiveWeightTokens_eq_filter] at hw
  by_cases hg : spoken = "" ∨ expected = ""
  · rw [if_pos hg] at hw
    simp at hw
  · rw [if_neg hg] at hw
    rw [List.mem_filter] at hw
    obtain ⟨hmem, hcond⟩ := hw
    unfold findMatchingWords
    rw [if_neg hg]
    rw [List.mem_filter]
    refine ⟨hmem, ?_⟩
    simp only [Bool.or_eq_true, decide_eq_true_eq, List.any_eq_true] at hcond ⊢
    rcases hcond with h | h
    · exact Or.inl h
    · obtain ⟨s, hsmem, hmatch⟩ := h
      exact Or.inr ⟨s, hsmem, scoreNear_imp_highlightNear s w hmatch⟩

/-- C2 witness: the amended theorem at a concrete input. -/
theorem matched_words_superset_witness :
    ("hello" : String) ∈ positiveWeightTokens "hello there" "hello friend" ∧
      ("hello" : String) ∈ findMatchingWords "hello there" "hello friend" :=
  have hmem : ("hello" : String) ∈ positiveWeightTokens "hello there" "hello friend" := by
    rw [positiveWeightTokens_eq_filter]
    decide
  ⟨hmem, matched_words_superset "hello there" "hello friend" "hello" hmem⟩

theorem wordWeight_eq_spec (sw : List String) (w : String) :
    wordWeight sw w = specTokenWeight sw w := by
  unfold wordWeight specTokenWeight scoreNearMatch
  split_ifs
  · rfl
  · norm_num
  · rfl

/-- C5: on the weighted path (non-empty inputs, at least one expected token
absent verbatim from the spoken tokens), the score equals the claim's
formula `round (min 100 (100 * W / N + B))`, the code's
`min 100 (round (W / N * 100 + B))` being equal to it because rounding is
monotone and fixes 100. -/
theorem weighted_path_formula (spoken expected : String)
    (hs : spoken ≠ "") (he : expected ≠ "")
    (hmiss : ∃ w ∈ normTokens expected, w ∉ normTokens spoken) :
    calculateMatchPercentage spoken expected =
      round (min (100 : ℚ)
        (100 * specWeightedSum spoken expected /
            ((normTokens expected).length : ℚ) +
          (if (normTokens spoken).length > (normTokens expected).length
            then (5 : ℚ) else 0))) := by
  obtain ⟨w0, hw0mem, hw0n⟩ := hmiss
  rw [calculateMatchPercentage]
  rw [if_neg (by simp [hs, he])]
  simp only
  rw [if_neg (by
    simp only [List.all_eq_true, decide_eq_true_eq]
    exact fun hall => hw0n (hall w0 hw0mem))]
  have hmap : (normTokens expected).map (wordWeight (normTokens spoken)) =
      (normTokens expected).map (specTokenWeight (normTokens spoken)) :=
    List.map_congr_left (fun w _ => wordWeight_eq_spec _ w)
  rw [hmap, min_hundred_round]
  refine congrArg round (congrArg (fun z : ℚ => min (100 : ℚ) z) ?_)
  unfold specWeightedSum
  ring

/-- C5 witness: the theorem at a concrete input. -/
theorem weighted_path_formula_witness :
    ("hello there yes" : String) ≠ "" ∧ ("hello world" : String) ≠ "" ∧
      (∃ w ∈ normTokens "hello world", w ∉ normTokens "hello there yes") ∧
      calculateMatchPercentage "hello there yes" "hello world" =
        round (min (100 : ℚ)
          (100 * specWeightedSum "hello there yes" "hello world" /
              ((normTokens "hello world").length : ℚ) +
            (if (normTokens "hello there yes").length >
                (normTokens "hello world").length then (5 : ℚ) else 0))) :=
  ⟨by decide, by decide, by decide,
    weighted_path_formula "hello there yes" "hello world"
      (by decide) (by decide) (by decide)⟩

/-- C6 counterexample: a pending user entry whose phrase text is empty.
`handleManualContinue` feeds the empty phrase back through the recognizer
path, where `calculateMatchPercentage("", "") = 0 < 60`, so nothing is
marked completed and nothing advances — the forced accept is NOT treated as
a score of 100. -/
theorem manual_continue_counterexample :
    histEmptyPhrase.find? (pendingUserAt 2) =
        some ⟨7, 2, Speaker.User, "", "", "", false⟩ ∧
      handleManualContinue Lang.en Lang.en dsSix histEmptyPhrase 2 =
        ⟨histEmptyPhrase, 2, none, false⟩ := by
  decide

/-- C6 (amended): whenever a pending user entry exists at the current step
AND its phrase text is non-empty, `handleManualContinue` behaves exactly as
`handleSuccessfulSpeechRecognition` fed the entry's own (lowercased) phrase,
whose self-score is 100 ≥ 60, so the transcript is accepted. -/
theorem manual_continue_accepts (tl ml : Lang) (ds : List DialoguePhrase)
    (h : List ConversationEntry) (cur : ℕ) (u : ConversationEntry)
    (hfind : h.find? (pendingUserAt cur) = some u) (hph : u.phrase ≠ "") :
    handleManualContinue tl ml ds h cur =
        handleSuccessfulSpeechRecognition tl ml ds h cur (jsLower u.phrase) ∧
      calculateMatchPercentage (jsLower u.phrase) (jsLower u.phrase) = 100 ∧
      (handleManualContinue tl ml ds h cur).accepted = true := by
  have hlow : jsLower u.phrase ≠ "" := fun hc =>
    hph ((jsLower_eq_empty_iff u.phrase).mp hc)
  have hscore := calculateMatchPercentage_self (jsLower u.phrase) hlow
  have heq : handleManualContinue tl ml ds h cur =
      handleSuccessfulSpeechRecognition tl ml ds h cur (jsLower u.phrase) := by
    unfold handleManualContinue
    simp only [hfind]
  refine ⟨heq, hscore, ?_⟩
  rw [heq]
  unfold handleSuccessfulSpeechRecognition
  simp only [hfind]
  rw [if_neg (by rw [hscore]; norm_num)]
  split
  · rfl
  · split
    · rfl
    · split
      · rfl
      · rfl

/-- C6 witness: the amended theorem at a concrete input. -/
theorem manual_continue_accepts_witness :
    histTwo.find? (pendingUserAt 2) =
        some ⟨2, 2, Speaker.User, "hi", "hai", "привет", false⟩ ∧
      ("hi" : String) ≠ "" ∧
      (handleManualContinue Lang.en Lang.en dsSix histTwo 2).accepted = true :=
  ⟨by decide, by decide,
    (manual_continue_accepts Lang.en Lang.en dsSix histTwo 2
      ⟨2, 2, Speaker.User, "hi", "hai", "привет", false⟩
      (by decide) (by decide)).2.2⟩

/-- C1 counterexample: in the six-step dialogue `dsSix`, the accepted user
step 4 has a loaded step 5 right after it and is not the maximum step (6),
yet the engine invokes the quiz handoff (`currentStep === 4` special case,
DialogueBox.tsx line 1440) instead of advancing. -/
theorem completion_iff_counterexample :
    (histFour.find? (pendingUserAt 4)).isSome = true ∧
      60 ≤ calculateMatchPercentage "yes" (jsLower "yes") ∧
      (dsSix.find? (fun p => p.dialogue_step = 4 + 1)).isSome = true ∧
      maxDialogueStep dsSix = some 6 ∧
      (handleSuccessfulSpeechRecognition Lang.en Lang.en dsSix histFour 4
          "yes").quizInvoked = some 1 ∧
      (handleSuccessfulSpeechRecognition Lang.en Lang.en dsSix histFour 4
          "yes").currentStep = 4 := by
  decide

/-- C1 (amended): for an accepted user step, the engine transitions to
Completed (invoking the quiz handoff with the loaded list's dialogue id,
defaulting to 1) if and only if the current step is the maximum loaded
stepIndex, or the current step equals 4 (taxi-dialogue special case), or no
NPC step exists at `currentStep + 1`, or the NPC step exists but no user
step exists at `currentStep + 2`; in the remaining case the engine advances
to `currentStep + 2` without invoking the quiz handoff. -/
theorem completion_iff (tl ml : Lang) (ds : List DialoguePhrase)
    (h : List ConversationEntry) (cur : ℕ) (t : String)
    (u : ConversationEntry)
    (hfind : h.find? (pendingUserAt cur) = some u)
    (hscore : 60 ≤ calculateMatchPercentage t (jsLower u.phrase)) :
    ((handleSuccessfulSpeechRecognition tl ml ds h cur t).quizInvoked.isSome
          = true ↔
        (maxDialogueStep ds = some cur ∨ cur = 4 ∨
          ds.find? (fun p =>
            p.dialogue_step = cur + 1 ∧ p.speaker = Speaker.NPC) = none ∨
          (ds.find? (fun p =>
              p.dialogue_step = cur + 1 ∧ p.speaker = Speaker.NPC) ≠ none ∧
            ds.find? (fun p =>
              p.dialogue_step = cur + 2 ∧ p.speaker = Speaker.User) = none)))
      ∧ (∀ d, (handleSuccessfulSpeechRecognition tl ml ds h cur t).quizInvoked
            = some d → d = quizDialogueId ds)
      ∧ ((handleSuccessfulSpeechRecognition tl ml ds h cur t).quizInvoked
            = none →
          (handleSuccessfulSpeechRecognition tl ml ds h cur t).currentStep
              = cur + 2 ∧
            (handleSuccessfulSpeechRecognition tl ml ds h cur t).accepted
              = true) := by
  unfold handleSuccessfulSpeechRecognition
  simp only [hfind]
  rw [if_neg (not_lt.mpr hscore)]
  by_cases hlast : maxDialogueStep ds = some cur ∨ cur = 4
  · rw [if_pos hlast]
    refine ⟨iff_of_true rfl ?_, fun d hd => (Option.some_inj.mp hd).symm,
      fun hnone => absurd hnone (Option.some_ne_none _)⟩
    rcases hlast with h1 | h1
    · exact Or.inl h1
    · exact Or.inr (Or.inl h1)
  · rw [if_neg hlast]
    split
    next hnpc =>
      exact ⟨iff_of_true rfl (Or.inr (Or.inr (Or.inl hnpc))),
        fun d hd => (Option.some_inj.mp hd).symm,
        fun hnone => absurd hnone (Option.some_ne_none _)⟩
    next npc hnpc =>
      split
      next huser =>
        refine ⟨iff_of_true rfl (Or.inr (Or.inr (Or.inr ⟨?_, huser⟩))),
          fun d hd => (Option.some_inj.mp hd).symm,
          fun hnone => absurd hnone (Option.some_ne_none _)⟩
        rw [hnpc]
        exact Option.some_ne_none _
      next nu huser =>
        refine ⟨iff_of_false ?_ ?_, fun d hd => ?_, fun _ => ⟨rfl, rfl⟩⟩
        · simp
        · rintro (h1 | h1 | h1 | ⟨-, h1⟩)
          · exact hlast (Or.inl h1)
          · exact hlast (Or.inr h1)
          · rw [hnpc] at h1
            cases h1
          · rw [huser] at h1
            cases h1
        · cases hd

/-- C1 witness: the amended theorem at a concrete input (accepted step 2 of
the six-step dialogue advances to step 4 without invoking the quiz). -/
theorem completion_iff_witness :
    histTwo.find? (pendingUserAt 2) =
        some ⟨2, 2, Speaker.User, "hi", "hai", "привет", false⟩ ∧
      60 ≤ calculateMatchPercentage "hi" (jsLower "hi") ∧
      ((handleSuccessfulSpeechRecognition Lang.en Lang.en dsSix histTwo 2
            "hi").currentStep = 2 + 2 ∧
        (handleSuccessfulSpeechRecognition Lang.en Lang.en dsSix histTwo 2
            "hi").accepted = true) :=
  ⟨by decide, by decide,
    (completion_iff Lang.en Lang.en dsSix histTwo 2 "hi"
      ⟨2, 2, Speaker.User, "hi", "hai", "привет", false⟩
      (by decide) (by decide)).2.2 (by decide)⟩

/-- C7: the boolean reported for a completed quiz is true iff
`correctCount / totalWords >= 0.6` (exactly the code's
`(correctCount / quizWords.length) * 100 >= 60`). -/
theorem quiz_pass_iff (os : List WordOutcome) (hne : os ≠ []) :
    runQuiz os = true ↔
      (correctCount os : ℚ) / (os.length : ℚ) ≥ 3 / 5 := by
  unfold runQuiz finishQuizPassed
  simp only [decide_eq_true_eq]
  constructor <;> intro hq <;> linarith

/-- C7 witness: five words, three answered correctly, two skipped, reports
passed = true. -/
theorem quiz_pass_iff_witness :
    quizFiveOutcomes ≠ [] ∧ runQuiz quizFiveOutcomes = true :=
  ⟨by decide,
    (quiz_pass_iff quizFiveOutcomes (by decide)).mpr (by
      have h1 : correctCount quizFiveOutcomes = 3 := by decide
      have h2 : quizFiveOutcomes.length = 5 := by decide
      rw [h1, h2]
      norm_num)⟩

theorem occursIn_nil (l : List Char) : occursIn [] l = true := by
  cases l <;> rfl

/-- C8: for non-empty transcript and expected answer, the quiz matcher
returns true whenever, after lowercase/punctuation/whitespace normalization,
the strings are equal, or one is a substring of the other, or the number of
consecutive matching leading characters is at least 2 or at least 30% of the
expected string's length. -/
theorem quiz_match_permissive (tl : Lang) (t e : String)
    (ht : t ≠ "") (he : e ≠ "")
    (hcond : quizCleanChars t = quizCleanChars e ∨
      occursIn (quizCleanChars e) (quizCleanChars t) = true ∨
      occursIn (quizCleanChars t) (quizCleanChars e) = true ∨
      2 ≤ leadAgreeCount (quizCleanChars e) (quizCleanChars t) ∨
      10 * leadAgreeCount (quizCleanChars e) (quizCleanChars t) ≥
        3 * (quizCleanChars e).length) :
    checkTranscriptMatch tl t e = true := by
  unfold checkTranscriptMatch
  rw [if_neg (by simp [ht, he])]
  by_cases htrim : String.mk (trimChars t.data) = String.mk (trimChars e.data)
  · rw [if_pos htrim]
  · rw [if_neg htrim]
    by_cases heq : quizCleanChars t = quizCleanChars e
    · rw [if_pos heq]
    · rw [if_neg heq]
      by_cases hocc : (occursIn (quizCleanChars e) (quizCleanChars t) ||
          occursIn (quizCleanChars t) (quizCleanChars e)) = true
      · rw [if_pos hocc]
      · rw [if_neg hocc]
        simp only [Bool.or_eq_true, not_or] at hocc
        obtain ⟨hoccA, hoccB⟩ := hocc
        have hlead : 2 ≤ leadAgreeCount (quizCleanChars e) (quizCleanChars t) ∨
            10 * leadAgreeCount (quizCleanChars e) (quizCleanChars t) ≥
              3 * (quizCleanChars e).length := by
          rcases hcond with hc | hc | hc | hc | hc
          · exact absurd hc heq
          · exact absurd hc hoccA
          · exact absurd hc hoccB
          · exact Or.inl hc
          · exact Or.inr hc
        have hene : quizCleanChars e ≠ [] := fun hnil =>
          hoccA (by rw [hnil]; exact occursIn_nil _)
        have htne : quizCleanChars t ≠ [] := fun hnil =>
          hoccB (by rw [hnil]; exact occursIn_nil _)
        by_cases hru : tl = Lang.ru ∧
            (quizCleanChars t).filter (fun c => ¬ c.isWhitespace) =
              (quizCleanChars e).filter (fun c => ¬ c.isWhitespace)
        · rw [if_pos hru]
        · rw [if_neg hru]
          rw [if_pos ⟨List.length_pos.mpr hene, List.length_pos.mpr htne⟩]
          rw [if_pos hlead]

/-- C8 witness: the theorem at a concrete input (substring containment). -/
theorem quiz_match_permissive_witness :
    ("hello" : String) ≠ "" ∧ ("hel" : String) ≠ "" ∧
      occursIn (quizCleanChars "hel") (quizCleanChars "hello") = true ∧
      checkTranscriptMatch Lang.en "hello" "hel" = true :=
  ⟨by decide, by decide, by decide,
    quiz_match_permissive Lang.en "hello" "hel" (by decide) (by decide)
      (Or.inr (Or.inl (by decide)))⟩

/-- C9: under the uniqueness-of-steps invariant, the rewind operation
immediately replaces the history with exactly its entries of step at most
the selected step, each unchanged except that for a selected User line the
entry at the selected step has its `isCompleted` flag cleared. -/
theorem go_back_truncates (h : List ConversationEntry)
    (entry : ConversationEntry) (hmem : entry ∈ h)
    (hsteps : List.Pairwise (fun a b => a.step ≠ b.step) h) :
    handleGoBack h entry =
      (h.filter (fun e => e.step ≤ entry.step)).map (fun e =>
        if entry.speaker = Speaker.User ∧ e.step = entry.step then
          { e with isCompleted := false }
        else e) := by
  have hsymm : Symmetric (fun a b : ConversationEntry => a.step ≠ b.step) :=
    fun _ _ hab => Ne.symm hab
  have huniq : ∀ e ∈ h, e.step = entry.step → e = entry := by
    intro e he hstep
    by_contra hne
    exact (List.Pairwise.forall hsymm hsteps he hmem hne) hstep
  unfold handleGoBack
  by_cases hnpc : entry.speaker = Speaker.NPC
  · rw [if_pos hnpc]
    have hid : ∀ e ∈ h.filter (fun e => e.step ≤ entry.step),
        (if entry.speaker = Speaker.User ∧ e.step = entry.step then
          { e with isCompleted := false }
        else e) = e := by
      intro e _
      rw [if_neg]
      rintro ⟨h1, -⟩
      rw [hnpc] at h1
      cases h1
    rw [show ((h.filter (fun e => e.step ≤ entry.step)).map (fun e =>
        if entry.speaker = Speaker.User ∧ e.step = entry.step then
          { e with isCompleted := false }
        else e)) = (h.filter (fun e => e.step ≤ entry.step)).map (fun e => e)
      from List.map_congr_left hid]
    rw [List.map_id']
  · rw [if_neg hnpc]
    have huser : entry.speaker = Speaker.User := by
      cases hsp : entry.speaker
      · exact absurd hsp hnpc
      · rfl
    refine List.map_congr_left ?_
    intro e he
    have heh : e ∈ h := List.mem_of_mem_filter he
    by_cases hstep : e.step = entry.step
    · have hee : e = entry := huniq e heh hstep
      rw [if_pos ⟨hee ▸ huser, hstep⟩, if_pos ⟨huser, hstep⟩]
    · rw [if_neg (fun hc => hstep hc.2), if_neg (fun hc => hstep hc.2)]

/-- C9 witness: the theorem at a concrete input (rewinding to the step-2
user entry of a four-entry history). -/
theorem go_back_truncates_witness :
    (⟨2, 2, Speaker.User, "hi", "hai", "привет", true⟩ : ConversationEntry)
        ∈ histFour ∧
      List.Pairwise (fun a b : ConversationEntry => a.step ≠ b.step)
        histFour ∧
      handleGoBack histFour ⟨2, 2, Speaker.User, "hi", "hai", "привет", true⟩ =
        (histFour.filter (fun e => e.step ≤ 2)).map (fun e =>
          if (⟨2, 2, Speaker.User, "hi", "hai", "привет",
              true⟩ : ConversationEntry).speaker = Speaker.User ∧
              e.step = 2 then
            { e with isCompleted := false }
          else e) :=
  ⟨by decide, by decide,
    go_back_truncates histFour ⟨2, 2, Speaker.User, "hi", "hai", "привет", true⟩
      (by decide) (by decide)⟩

/-! ## C10 support lemmas -/

theorem chain_lt_of_sublist {l1 l2 : List ℕ} (hs : l1.Sublist l2)
    (hc : List.Chain' (· < ·) l2) : List.Chain' (· < ·) l1 := by
  rw [List.chain'_iff_pairwise] at hc ⊢
  exact hc.sublist hs

theorem chain_lt_append_singleton {l : List ℕ} {n : ℕ}
    (hc : List.Chain' (· < ·) l) (hall : ∀ m ∈ l, m < n) :
    List.Chain' (· < ·) (l ++ [n]) := by
  rw [List.chain'_iff_pairwise] at hc ⊢
  rw [List.pairwise_append]
  refine ⟨hc, List.pairwise_singleton _ _, ?_⟩
  intro a ha b hb
  rw [List.mem_singleton] at hb
  rw [hb]
  exact hall a ha

theorem markFirstCompleted_map_step (idv : ℕ) (h : List ConversationEntry) :
    (markFirstCompleted idv h).map (fun e => e.step) =
      h.map (fun e => e.step) := by
  induction h with
  | nil => rfl
  | cons e rest ih =>
    unfold markFirstCompleted
    split_ifs
    · simp
    · simp [ih]

theorem markFirstCompleted_npc (idv : ℕ) (h : List ConversationEntry)
    (hn : ∀ e ∈ h, e.speaker = Speaker.NPC → e.isCompleted = true) :
    ∀ e ∈ markFirstCompleted idv h,
      e.speaker = Speaker.NPC → e.isCompleted = true := by
  induction h with
  | nil => intro e he; simp [markFirstCompleted] at he
  | cons a rest ih =>
    intro e he hnpc
    unfold markFirstCompleted at he
    split_ifs at he with hid
    · rcases List.mem_cons.mp he with rfl | hmemr
      · rfl
      · exact hn e (List.mem_cons_of_mem _ hmemr) hnpc
    · rcases List.mem_cons.mp he with rfl | hmemr
      · exact hn _ (List.mem_cons_self _ _) hnpc
      · exact ih (fun x hx => hn x (List.mem_cons_of_mem _ hx)) e hmemr hnpc

theorem mem_markFirstCompleted_step_le (idv : ℕ) (h : List ConversationEntry)
    (cur : ℕ) (hb : ∀ e ∈ h, e.step ≤ cur) :
    ∀ e ∈ markFirstCompleted idv h, e.step ≤ cur := by
  intro e he
  have hm : e.step ∈ (markFirstCompleted idv h).map (fun e => e.step) :=
    List.mem_map_of_mem _ he
  rw [markFirstCompleted_map_step] at hm
  obtain ⟨e2, he2, hstep⟩ := List.mem_map.mp hm
  exact hstep ▸ hb e2 he2

theorem mem_handleGoBack_step_le (h : List ConversationEntry)
    (entry : ConversationEntry) :
    ∀ e ∈ handleGoBack h entry, e.step ≤ entry.step := by
  intro e he
  unfold handleGoBack at he
  by_cases hspk : entry.speaker = Speaker.NPC
  · rw [if_pos hspk] at he
    simpa using (List.mem_filter.mp he).2
  · rw [if_neg hspk] at he
    obtain ⟨e2, he2, rfl⟩ := List.mem_map.mp he
    have h2 := (List.mem_filter.mp he2).2
    split_ifs <;> simpa using h2

theorem handleGoBack_invariant (h : List ConversationEntry)
    (entry : ConversationEntry) (hinv : HistoryInvariant h) :
    HistoryInvariant (handleGoBack h entry) := by
  obtain ⟨hchain, hnpcInv⟩ := hinv
  unfold handleGoBack
  by_cases hspk : entry.speaker = Speaker.NPC
  · rw [if_pos hspk]
    refine ⟨chain_lt_of_sublist
      (List.Sublist.map _ (List.filter_sublist _)) hchain, ?_⟩
    intro e he hn
    exact hnpcInv e (List.mem_of_mem_filter he) hn
  · rw [if_neg hspk]
    refine ⟨?_, ?_⟩
    · rw [List.map_map]
      rw [List.map_congr_left (g := fun e : ConversationEntry => e.step)
        (fun e _ => by
          simp only [Function.comp]
          split_ifs <;> rfl)]
      exact chain_lt_of_sublist
        (List.Sublist.map _ (List.filter_sublist _)) hchain
    · intro e he hn
      obtain ⟨e2, he2, rfl⟩ := List.mem_map.mp he
      by_cases hc : e2.speaker = Speaker.User ∧ e2.step = entry.step
      · rw [if_pos hc] at hn
        rw [hc.1] at hn
        cases hn
      · rw [if_neg hc] at hn ⊢
        exact hnpcInv e2 (List.mem_of_mem_filter he2) hn

/-- C10: every history-mutating operation — initialization, revealing a
user phrase, the accept transition (completion marking plus NPC/user
reveals), and rewind — preserves the invariant that steps are strictly
increasing (hence unique) and every NPC entry is completed from creation.
The step-pointer hypotheses record the calling convention of the source:
new phrases are only ever revealed at steps beyond the existing history. -/
theorem history_invariant_preserved :
    (∀ (tl ml : Lang) (phrases : List DialoguePhrase)
        (h : List ConversationEntry),
        HistoryInvariant h →
          HistoryInvariant (initializeConversation tl ml phrases h)) ∧
      (∀ (tl ml : Lang) (phrases : List DialoguePhrase)
          (h : List ConversationEntry) (step : ℕ),
          HistoryInvariant h → (∀ e ∈ h, e.step < step) →
            HistoryInvariant (addUserPhrase tl ml phrases h step)) ∧
      (∀ (tl ml : Lang) (ds : List DialoguePhrase)
          (h : List ConversationEntry) (cur : ℕ) (t : String),
          HistoryInvariant h → (∀ e ∈ h, e.step ≤ cur) →
            HistoryInvariant
              (handleSuccessfulSpeechRecognition tl ml ds h cur t).history) ∧
      (∀ (tl ml : Lang) (ds : List DialoguePhrase)
          (h : List ConversationEntry) (entry : ConversationEntry),
          HistoryInvariant h →
            HistoryInvariant (handleGoBackFull tl ml ds h entry)) := by
  refine ⟨?_, ?_, ?_, ?_⟩
  · -- initializeConversation
    intro tl ml phrases h hinv
    unfold initializeConversation
    split
    · exact hinv
    next f hf =>
      split_ifs with hdup
      · exact hinv
      · split
        · exact ⟨List.chain'_singleton _, by
            intro e he hn
            rw [List.mem_singleton] at he
            rw [he]
            rfl⟩
        next u hu =>
          refine ⟨?_, ?_⟩
          · show List.Chain' (· < ·) [1, 2]
            rw [List.chain'_iff_pairwise]
            decide
          · intro e he hn
            rcases List.mem_cons.mp he with rfl | he2
            · rfl
            · have he3 : e = mkEntry tl ml Speaker.User false u 2 := by
                simpa using he2
              rw [he3] at hn
              cases hn
  · -- addUserPhrase
    intro tl ml phrases h step hinv hall
    unfold addUserPhrase
    split
    · exact hinv
    next u hu =>
      split_ifs with hdup
      · exact hinv
      · obtain ⟨hchain, hnpcInv⟩ := hinv
        refine ⟨?_, ?_⟩
        · rw [List.map_append]
          exact chain_lt_append_singleton hchain (by
            intro m hm
            obtain ⟨e, he, rfl⟩ := List.mem_map.mp hm
            exact hall e he)
        · intro e he hn
          rcases List.mem_append.mp he with hmem | hmem
          · exact hnpcInv e hmem hn
          · rw [List.mem_singleton] at hmem
            rw [hmem] at hn
            cases hn
  · -- handleSuccessfulSpeechRecognition
    intro tl ml ds h cur t hinv hbound
    unfold handleSuccessfulSpeechRecognition
    split
    · exact hinv
    next u hu =>
      clear hu
      obtain ⟨hchain, hnpcInv⟩ := hinv
      have hchainM : List.Chain' (· < ·)
          ((markFirstCompleted u.id h).map (fun e => e.step)) := by
        rw [markFirstCompleted_map_step]
        exact hchain
      have hnpcM := markFirstCompleted_npc u.id h hnpcInv
      have hboundM := mem_markFirstCompleted_step_le u.id h cur hbound
      by_cases hscore : calculateMatchPercentage t (jsLower u.phrase) < 60
      · rw [if_pos hscore]
        exact ⟨hchain, hnpcInv⟩
      · rw [if_neg hscore]
        by_cases hlast : maxDialogueStep ds = some cur ∨ cur = 4
        · rw [if_pos hlast]
          exact ⟨hchainM, hnpcM⟩
        · rw [if_neg hlast]
          split
          · exact ⟨hchainM, hnpcM⟩
          next npc hnpcF =>
            have hwith : HistoryInvariant (markFirstCompleted u.id h ++
                [mkEntry tl ml Speaker.NPC true npc (cur + 1)]) := by
              refine ⟨?_, ?_⟩
              · rw [List.map_append]
                exact chain_lt_append_singleton hchainM (by
                  intro m hm
                  obtain ⟨e, he, rfl⟩ := List.mem_map.mp hm
                  exact Nat.lt_succ_of_le (hboundM e he))
              · intro e he hn
                rcases List.mem_append.mp he with hmem | hmem
                · exact hnpcM e hmem hn
                · rw [List.mem_singleton] at hmem
                  rw [hmem]
                  rfl
            split
            · exact hwith
            next nu hnuF =>
              obtain ⟨hchainW, hnpcW⟩ := hwith
              refine ⟨?_, ?_⟩
              · rw [List.map_append]
                refine chain_lt_append_singleton hchainW ?_
                intro m hm
                obtain ⟨e, he, rfl⟩ := List.mem_map.mp hm
                rcases List.mem_append.mp he with hmem | hmem
                · exact Nat.lt_succ_of_le
                    (Nat.le_succ_of_le (hboundM e hmem))
                · rw [List.mem_singleton] at hmem
                  rw [hmem]
                  exact Nat.lt_succ_self _
              · intro e he hn
                rcases List.mem_append.mp he with hmem | hmem
                · exact hnpcW e hmem hn
                · rw [List.mem_singleton] at hmem
                  rw [hmem] at hn
                  cases hn
  · -- handleGoBackFull
    intro tl ml ds h entry hinv
    have htrunc := handleGoBack_invariant h entry hinv
    unfold handleGoBackFull
    by_cases hspk : entry.speaker = Speaker.NPC
    · rw [if_pos hspk]
      split
      next nd hnd =>
        by_cases huserStep : nd.speaker = Speaker.User
        · rw [if_pos huserStep]
          obtain ⟨hcht, hnpct⟩ := htrunc
          refine ⟨?_, ?_⟩
          · rw [List.map_append]
            refine chain_lt_append_singleton hcht ?_
            intro m hm
            obtain ⟨e, he, rfl⟩ := List.mem_map.mp hm
            exact Nat.lt_succ_of_le (mem_handleGoBack_step_le h entry e he)
          · intro e he hn
            rcases List.mem_append.mp he with hmem | hmem
            · exact hnpct e hmem hn
            · rw [List.mem_singleton] at hmem
              rw [hmem] at hn
              cases hn
        · rw [if_neg huserStep]
          exact htrunc
      next hnd => exact htrunc
    · rw [if_neg hspk]
      exact htrunc

/-- C10 witness: the preservation theorem applied to concrete histories for
each of the four operations. -/
theorem history_invariant_preserved_witness :
    HistoryInvariant (initializeConversation Lang.en Lang.ru dsSix []) ∧
      HistoryInvariant (addUserPhrase Lang.en Lang.ru dsSix
        [⟨1, 1, Speaker.NPC, "Hello", "heh-loh", "Привет", true⟩] 2) ∧
      HistoryInvariant (handleSuccessfulSpeechRecognition Lang.en Lang.ru
        dsSix histTwo 2 "hi").history ∧
      HistoryInvariant (handleGoBackFull Lang.en Lang.ru dsSix histFour
        ⟨3, 3, Speaker.NPC, "Nice", "nais", "Хорошо", true⟩) :=
  ⟨history_invariant_preserved.1 Lang.en Lang.ru dsSix []
      ⟨List.chain'_nil, by simp⟩,
    history_invariant_preserved.2.1 Lang.en Lang.ru dsSix
      [⟨1, 1, Speaker.NPC, "Hello", "heh-loh", "Привет", true⟩] 2
      ⟨List.chain'_singleton _, by decide⟩ (by decide),
    history_invariant_preserved.2.2.1 Lang.en Lang.ru dsSix histTwo 2 "hi"
      ⟨by rw [List.chain'_iff_pairwise]; decide, by decide⟩ (by decide),
    history_invariant_preserved.2.2.2 Lang.en Lang.ru dsSix histFour
      ⟨3, 3, Speaker.NPC, "Nice", "nais", "Хорошо", true⟩
      ⟨by rw [List.chain'_iff_pairwise]; decide, by decide⟩⟩

end Turi
